import Mathlib

/-!
Verification of the branch-lineage resolution engine of the PR Stack
Visualizer browser extension.

The development shallowly embeds the two TypeScript sources:

* `src/services/github-api.ts` — the `GitHubApiService` class with
  `fetchGitHubApi`, `getBranchInfo`, `getPullRequests` and
  `buildBranchHierarchy`;
* `src/pull-request/visualize.ts` — the `PRStackVisualizer` class with
  `MAIN_BRANCHES`, `getPRInfo`, `fetchBranchChain`, `addTokenStatusToUI`,
  `visualizePR` and the retry scheduling in `init`/`visualizePR`.

Network effects are modelled by oracles: the branch-lookup call
`getBranchInfo` is represented by a total function `sha : String → String`
giving the commit sha of each branch (the claims under scrutiny concern the
walk over the head→base mapping, not HTTP failure paths, which are modelled
separately for the credential claim).  The `while (currentBranch)` loop of
`buildBranchHierarchy` has no bound in the source, so it is embedded with an
explicit fuel parameter: `none` means the loop has not exited within `fuel`
iterations, `some chain` means the loop exited and returned `chain`.
-/

/-- `BranchInfo` from `github-api.ts` lines 1–5 (also duplicated verbatim in
`visualize.ts` lines 3–7): `{ name: string; sha: string; baseBranch?: string }`.
The optional `baseBranch` field is an `Option`. -/
structure BranchInfo where
  name : String
  sha : String
  baseBranch : Option String
deriving DecidableEq, Repr

/-- `PrInfo` from `github-api.ts` lines 7–14: one pull request as returned by
`getPullRequests`, i.e. one directed edge `headBranch → baseBranch`. -/
structure PrInfo where
  number : Nat
  title : String
  baseBranch : String
  headBranch : String
  state : String
  url : String
deriving DecidableEq, Repr

/-- `String.prototype.toLowerCase` as used throughout the sources.  Embedded
structurally (per-character `Char.toLower` over the character list) so that the
kernel can evaluate it; on the ASCII branch names compared against the trunk
lists this agrees with the JavaScript built-in. -/
def jsToLower (s : String) : String := String.mk (s.data.map Char.toLower)

/-- `String.prototype.trim`: drop whitespace from both ends, embedded
structurally over the character list. -/
def jsTrim (s : String) : String :=
  String.mk (((s.data.dropWhile Char.isWhitespace).reverse.dropWhile Char.isWhitespace).reverse)

/-- The literal trunk list of the chain walk, `github-api.ts` line 122:
`['main', 'master', 'develop'].includes(currentBranch.toLowerCase())`.
Note it has three elements; `'dev'` is absent here. -/
def WALK_TRUNKS : List String := ["main", "master", "develop"]

/-- `github-api.ts` lines 101–107: `const branchMap = new Map(); prs.forEach(pr
=> branchMap.set(pr.headBranch, pr.baseBranch))`.  `Map.set` overwrites, so a
later PR with the same head branch shadows an earlier one; the fold applies
later entries outermost. `Map.get` on a missing key is `undefined`, i.e.
`none`. -/
def buildBranchMap (prs : List PrInfo) : String → Option String :=
  prs.foldl (fun m pr => fun k => if k = pr.headBranch then some pr.baseBranch else m k)
    (fun _ => none)

/-- The `while (currentBranch)` loop of `buildBranchHierarchy`,
`github-api.ts` lines 109–129, with explicit fuel (the source loop has no
bound; `none` = the loop is still running after `fuel` iterations).

Per iteration the source does: `getBranchInfo` (the `sha` oracle), look up the
base in the map, store it on the node (`branchInfo.baseBranch = baseBranch`),
push the node, set `currentBranch = baseBranch || ''` (so a missing or empty
base yields `''`, which makes the `while` condition false next time), and if
the new `currentBranch.toLowerCase()` is in `['main','master','develop']`,
fetch that branch once more, push it (without a base field) and `break`. -/
def chainWalk (sha : String → String) (branchMap : String → Option String) :
    Nat → String → Option (List BranchInfo)
  | 0, _ => none
  | fuel+1, currentBranch =>
    if currentBranch = "" then some []
    else if WALK_TRUNKS.contains (jsToLower ((branchMap currentBranch).getD "")) then
      some [⟨currentBranch, sha currentBranch, branchMap currentBranch⟩,
            ⟨(branchMap currentBranch).getD "", sha ((branchMap currentBranch).getD ""), none⟩]
    else
      (chainWalk sha branchMap fuel ((branchMap currentBranch).getD "")).map
        (fun rest => ⟨currentBranch, sha currentBranch, branchMap currentBranch⟩ :: rest)

/-- `buildBranchHierarchy` from `github-api.ts` lines 99–130 (duplicated
verbatim in `visualize.ts` lines 101–132): list the repository's pull
requests (`prs`), build the head→base map, then run the chain walk from
`headBranch`. -/
def buildBranchHierarchy (prs : List PrInfo) (sha : String → String) (fuel : Nat)
    (headBranch : String) : Option (List BranchInfo) :=
  chainWalk sha (buildBranchMap prs) fuel headBranch

/-- The two error shapes thrown by `fetchGitHubApi`, `github-api.ts` lines
59–61 and 71–73: `Error('No GitHub token available')` before any request, and
`` Error(`GitHub API error: ...`) `` on a non-ok response. -/
inductive ApiError where
  | noToken
  | httpError (statusText : String)
deriving DecidableEq, Repr

/-- `fetchGitHubApi` from `github-api.ts` lines 54–76.  `tokenAfterLoad` is
the token state after the `loadToken` re-check on lines 55–57; if it is still
absent the function throws `'No GitHub token available'` *before* calling
`fetch` — the `request` oracle (which models the `fetch` + `response.ok`
check) is not consulted at all. -/
def fetchGitHubApi {α : Type} (tokenAfterLoad : Option String)
    (request : String → Except ApiError α) : Except ApiError α :=
  match tokenAfterLoad with
  | none => Except.error ApiError.noToken
  | some t => request t

/-- Iterating the head→base mapping: `iterateBase f n c` is the branch reached
from `c` after following `n` map edges, `none` once an edge is missing. -/
def iterateBase (f : String → Option String) : Nat → String → Option String
  | 0, c => some c
  | n+1, c =>
    match f c with
    | none => none
    | some b => iterateBase f n b

/-- "No cycle reachable from `head`": the branches visited by following the
mapping from `head` never repeat. -/
def NoCycleFrom (f : String → Option String) (head : String) : Prop :=
  ∀ m n c, m < n → iterateBase f m head = some c → iterateBase f n head = some c → False

namespace Visualize

/-- `MAIN_BRANCHES` from `visualize.ts` line 141:
`['main', 'master', 'develop', 'dev']`. -/
def MAIN_BRANCHES : List String := ["main", "master", "develop", "dev"]

/-- The classification step of `getPRInfo`, `visualize.ts` lines 416–418:
`const isMainBranch = this.MAIN_BRANCHES.includes(baseBranch.toLowerCase());
const isStackedPR = !isMainBranch`.  A pure function of the base branch name
alone. -/
def isStackedPR (baseBranch : String) : Bool :=
  !(MAIN_BRANCHES.contains (jsToLower baseBranch))

/-- `PrInfo` from `visualize.ts` lines 9–16 (the page-level record, distinct
from the API record of the same name). -/
structure PrInfo where
  baseBranch : String
  headBranch : String
  isStackedPR : Bool
  repoOwner : String
  repoName : String
  branchChain : Option (List BranchInfo)
deriving DecidableEq, Repr

/-- The record built at the end of `getPRInfo`, `visualize.ts` lines 420–426:
classification comes from `isStackedPR baseBranch` and `branchChain` is absent
until enrichment. -/
def mkPrInfo (repoOwner repoName baseBranch headBranch : String) : PrInfo :=
  ⟨baseBranch, headBranch, isStackedPR baseBranch, repoOwner, repoName, none⟩

/-- The branch-name extraction of `getPRInfo`, `visualize.ts` line 402 (and
line 414 for the base): `element.textContent?.trim() || ''` — a missing text
node or an all-whitespace text yields the empty string. -/
def extractBranchName (textContent : Option String) : String :=
  match textContent with
  | none => ""
  | some t => if jsTrim t = "" then "" else jsTrim t

/-- `fetchBranchChain` from `visualize.ts` lines 218–234: without a token it
returns `[]` immediately (the `hierarchy` argument — the outcome
`buildBranchHierarchy` would have — is never consulted); with a token it
returns the hierarchy, or `[]` if that call threw. -/
def fetchBranchChain (hasGithubToken : Bool)
    (hierarchy : Except ApiError (List BranchInfo)) : List BranchInfo :=
  if !hasGithubToken then []
  else
    match hierarchy with
    | Except.ok chain => chain
    | Except.error _ => []

/-- The element appended by `addTokenStatusToUI`, `visualize.ts` lines
604–630: its CSS class, its message, and whether it wires the
`configure-token` link (the credential-configuration affordance that sends the
`openOptions` message). -/
structure TokenStatusUI where
  cssClass : String
  message : String
  hasConfigureLink : Bool
deriving DecidableEq, Repr

/-- `addTokenStatusToUI` from `visualize.ts` lines 608–627. -/
def addTokenStatusToUI (hasGithubToken : Bool) : TokenStatusUI :=
  if hasGithubToken then
    ⟨"pr-stack-note", "Using GitHub token for enhanced branch detection", false⟩
  else
    ⟨"pr-stack-warning",
     "No GitHub token configured. Configure token for better branch detection", true⟩

/-- The enrichment tail of `visualizePR`, `visualize.ts` lines 588–600: only
when a token is present is `fetchBranchChain` called and `prInfo.branchChain`
assigned; without a token the provisional record is left untouched. -/
def visualizeEnrichment (hasGithubToken : Bool) (prInfo : PrInfo)
    (hierarchy : Except ApiError (List BranchInfo)) : PrInfo :=
  if hasGithubToken then
    { prInfo with branchChain := some (fetchBranchChain hasGithubToken hierarchy) }
  else prInfo

/-- The page as seen by the Controller: the list of nodes that matter for the
reconciliation invariant, `true` for a node carrying the stable marker
attribute `data-pr-stack="true"` (set in `createStackIndicator`,
`visualize.ts` line 473), `false` for any other node. -/
abbrev Page := List Bool

/-- `document.querySelectorAll('[data-pr-stack="true"]').forEach(remove)`,
`visualize.ts` lines 560–561 (also `destroy`, lines 638–639): every marked
node is removed. -/
def removeStackIndicators (page : Page) : Page :=
  page.filter (fun marked => !marked)

/-- The synchronous blocks of `visualizePR` that touch indicator nodes.  The
event loop runs each block atomically; `await` points separate them, so an
interleaved execution is an arbitrary sequence of these steps.

* `renderProvisional` — lines 556–586: remove *all* marked nodes, then insert
  one freshly created marked indicator (no `await` in between);
* `applyEnrichment` — lines 593–599 after the `await`: query one marked node;
  if found, remove it and insert a fresh marked indicator, else do nothing;
* `abortRetry` — lines 556–579 when page context or insertion point is
  missing: remove all marked nodes, then return early (also models
  `destroy`). -/
inductive ControllerStep where
  | renderProvisional
  | applyEnrichment
  | abortRetry
deriving DecidableEq, Repr

/-- Effect of one synchronous Controller block on the page. -/
def applyStep (page : Page) : ControllerStep → Page
  | ControllerStep.renderProvisional => true :: removeStackIndicators page
  | ControllerStep.applyEnrichment =>
      if page.contains true then true :: page.erase true else page
  | ControllerStep.abortRetry => removeStackIndicators page

/-- Run an interleaving of Controller blocks. -/
def runSteps (page : Page) (steps : List ControllerStep) : Page :=
  steps.foldl applyStep page

/-- Number of indicator nodes carrying the marker attribute. -/
def countIndicators (page : Page) : Nat :=
  page.count true

/-- The fixed attempt schedule of `init`, `visualize.ts` lines 166–170:
`this.visualizePR(); setTimeout(..., 500); setTimeout(..., 2000)` —
milliseconds after initialisation. -/
def initAttemptDelays : List Nat := [0, 500, 2000]

/-- The self-retry delay of `visualizePR`, `visualize.ts` lines 568 and 577:
`setTimeout(() => this.visualizePR(), 1000)`. -/
def selfRetryDelayMs : Nat := 1000

/-- The self-retry chain spawned by one `visualizePR` trigger.  `avail k` says
whether at attempt `k` the page context *and* the insertion point are both
extractable (`getPRInfo() ≠ null` and `findInsertionPoint() ≠ null`).
Attempt `0` is the triggering call; a failed attempt (`avail n = false`)
schedules attempt `n+1` via `setTimeout(..., 1000)` (lines 565–579), while a
successful attempt proceeds to render and schedules nothing. -/
def retryActive (avail : Nat → Bool) : Nat → Bool
  | 0 => true
  | n+1 => retryActive avail n && !(avail n)

end Visualize

/-! ### Basic facts about the chain walk -/

theorem chainWalk_zero (sha : String → String) (f : String → Option String) (cur : String) :
    chainWalk sha f 0 cur = none := rfl

theorem chainWalk_succ (sha : String → String) (f : String → Option String) (n : Nat)
    (cur : String) :
    chainWalk sha f (n+1) cur =
      if cur = "" then some []
      else if WALK_TRUNKS.contains (jsToLower ((f cur).getD "")) then
        some [⟨cur, sha cur, f cur⟩, ⟨(f cur).getD "", sha ((f cur).getD ""), none⟩]
      else
        (chainWalk sha f n ((f cur).getD "")).map
          (fun rest => ⟨cur, sha cur, f cur⟩ :: rest) := rfl

theorem chainWalk_empty_head (sha : String → String) (f : String → Option String) (n : Nat) :
    chainWalk sha f (n+1) "" = some [] := by
  rw [chainWalk_succ]
  simp

theorem chainWalk_eq_nil {sha : String → String} {f : String → Option String} {n : Nat}
    {cur : String} (h : chainWalk sha f n cur = some []) : cur = "" := by
  cases n with
  | zero => simp [chainWalk_zero] at h
  | succ n =>
    rw [chainWalk_succ] at h
    split at h
    · assumption
    · split at h
      · simp at h
      · obtain ⟨rest, _, hcons⟩ := Option.map_eq_some'.mp h
        simp at hcons

theorem chainWalk_head_name {sha : String → String} {f : String → Option String} {n : Nat}
    {cur : String} {x : BranchInfo} {xs : List BranchInfo}
    (h : chainWalk sha f n cur = some (x :: xs)) : x.name = cur := by
  cases n with
  | zero => simp [chainWalk_zero] at h
  | succ n =>
    rw [chainWalk_succ] at h
    split at h
    · simp at h
    · split at h
      · rw [Option.some_inj] at h
        rw [← (List.cons.injEq _ _ _ _).mp h |>.1]
      · obtain ⟨rest, _, hcons⟩ := Option.map_eq_some'.mp h
        have hcons' : (⟨cur, sha cur, f cur⟩ : BranchInfo) :: rest = x :: xs := hcons
        rw [← (List.cons.injEq _ _ _ _).mp hcons' |>.1]

theorem chainWalk_nil_of_empty {sha : String → String} {f : String → Option String} {n : Nat}
    {rest : List BranchInfo} (h : chainWalk sha f n "" = some rest) : rest = [] := by
  cases n with
  | zero => simp [chainWalk_zero] at h
  | succ n =>
    rw [chainWalk_empty_head] at h
    exact (Option.some_inj.mp h).symm

/-- Shape of the last node of any chain the walk returns: it is the appended
trunk terminal (lowercased name in the walk's trunk list), or the walk stopped
because the node's base edge in the mapping is absent or the empty string.  In
either case the stored `baseBranch` of the last node is `none` or `some ""`
(the trunk terminal is built by a fresh `getBranchInfo`, which never sets
`baseBranch`, even when the trunk branch occurs as a key of the mapping). -/
theorem chainWalk_last_spec {sha : String → String} {f : String → Option String} :
    ∀ {n : Nat} {cur : String} {chain : List BranchInfo},
      chainWalk sha f n cur = some chain → ∀ x, chain.getLast? = some x →
      (WALK_TRUNKS.contains (jsToLower x.name) = true ∨ f x.name = none ∨ f x.name = some "") ∧
      (x.baseBranch = none ∨ x.baseBranch = some "") := by
  intro n
  induction n with
  | zero => intro cur chain h; simp [chainWalk_zero] at h
  | succ n ih =>
    intro cur chain h x hx
    rw [chainWalk_succ] at h
    split at h
    · rw [Option.some_inj] at h
      subst h
      simp at hx
    · split at h
      next ht =>
        rw [Option.some_inj] at h
        subst h
        rw [List.getLast?_cons_cons, List.getLast?_singleton, Option.some_inj] at hx
        subst hx
        exact ⟨Or.inl ht, Or.inl rfl⟩
      next ht =>
        obtain ⟨rest, hrest, hcons⟩ := Option.map_eq_some'.mp h
        have hcons' : (⟨cur, sha cur, f cur⟩ : BranchInfo) :: rest = chain := hcons
        subst hcons'
        cases rest with
        | nil =>
          rw [List.getLast?_singleton, Option.some_inj] at hx
          subst hx
          have hnext : ((f cur).getD "") = "" := chainWalk_eq_nil hrest
          cases hf : f cur with
          | none => exact ⟨Or.inr (Or.inl rfl), Or.inl rfl⟩
          | some b =>
            rw [hf, Option.getD_some] at hnext
            subst hnext
            exact ⟨Or.inr (Or.inr rfl), Or.inr rfl⟩
        | cons r rs =>
          rw [List.getLast?_cons_cons] at hx
          exact ih hrest x hx

/-- Every node of a returned chain except the last points, via its stored
`baseBranch`, at the name of the next node: the chain is a path. -/
theorem chainWalk_adjacent {sha : String → String} {f : String → Option String} :
    ∀ {n : Nat} {cur : String} {chain : List BranchInfo},
      chainWalk sha f n cur = some chain →
      ∀ (i : Nat) (h : i + 1 < chain.length),
        (chain.get ⟨i, Nat.lt_of_succ_lt h⟩).baseBranch =
          some (chain.get ⟨i+1, h⟩).name := by
  intro n
  induction n with
  | zero => intro cur chain h; simp [chainWalk_zero] at h
  | succ n ih =>
    intro cur chain h i hi
    rw [chainWalk_succ] at h
    split at h
    · rw [Option.some_inj] at h
      subst h
      simp at hi
    · split at h
      next ht =>
        rw [Option.some_inj] at h
        subst h
        have hi' : i = 0 := by
          simp only [List.length_cons, List.length_nil] at hi
          omega
        subst hi'
        cases hf : f cur with
        | none =>
          rw [hf] at ht
          exact absurd ht (by decide)
        | some b =>
          show some b = some ((some b).getD "")
          rw [Option.getD_some]
      next ht =>
        obtain ⟨rest, hrest, hcons⟩ := Option.map_eq_some'.mp h
        have hcons' : (⟨cur, sha cur, f cur⟩ : BranchInfo) :: rest = chain := hcons
        subst hcons'
        cases i with
        | zero =>
          cases rest with
          | nil => simp at hi
          | cons r rs =>
            have hname : r.name = (f cur).getD "" := chainWalk_head_name hrest
            have hne : ((f cur).getD "") ≠ "" := by
              intro hempty
              rw [hempty] at hrest
              have := chainWalk_nil_of_empty hrest
              simp at this
            cases hf : f cur with
            | none =>
              rw [hf, Option.getD_none] at hne
              exact absurd rfl hne
            | some b =>
              rw [hf, Option.getD_some] at hname
              show some b = some r.name
              rw [hname]
        | succ j =>
          simp only [List.length_cons] at hi
          have hj : j + 1 < rest.length := by omega
          exact ih hrest j hj

/-! ### Iterating the mapping, and termination of the walk on cycle-free data -/

theorem iterateBase_succ (f : String → Option String) (n : Nat) (c : String) :
    iterateBase f (n+1) c =
      match f c with
      | none => none
      | some b => iterateBase f n b := rfl

theorem iterateBase_succ_right (f : String → Option String) :
    ∀ (n : Nat) (c : String), iterateBase f (n+1) c = (iterateBase f n c).bind f := by
  intro n
  induction n with
  | zero =>
    intro c
    cases hf : f c <;> simp [iterateBase_succ, iterateBase, hf]
  | succ n ih =>
    intro c
    cases hf : f c with
    | none => simp [iterateBase_succ, hf]
    | some b =>
      calc iterateBase f (n+1+1) c = iterateBase f (n+1) b := by rw [iterateBase_succ]; rw [hf]
        _ = (iterateBase f n b).bind f := ih b
        _ = (iterateBase f (n+1) c).bind f := by rw [iterateBase_succ, hf]

theorem iterateBase_none_add (f : String → Option String) {n : Nat} {c : String}
    (h : iterateBase f n c = none) (m : Nat) : iterateBase f (n+m) c = none := by
  induction m with
  | zero => exact h
  | succ m ih =>
    rw [Nat.add_succ, iterateBase_succ_right, ih]
    rfl

theorem iterateBase_val_mem {f : String → Option String} :
    ∀ {n : Nat} {cur c : String}, iterateBase f (n+1) cur = some c → ∃ a, f a = some c := by
  intro n
  induction n with
  | zero =>
    intro cur c h
    rw [iterateBase_succ] at h
    cases hf : f cur with
    | none => rw [hf] at h; simp at h
    | some b =>
      rw [hf] at h
      have hbc : b = c := Option.some_inj.mp h
      subst hbc
      exact ⟨cur, hf⟩
  | succ n ih =>
    intro cur c h
    rw [iterateBase_succ] at h
    cases hf : f cur with
    | none => rw [hf] at h; simp at h
    | some b =>
      rw [hf] at h
      exact ih h

theorem chainWalk_none_step {sha : String → String} {f : String → Option String} {n : Nat}
    {cur : String} (h : chainWalk sha f (n+1+1) cur = none) :
    cur ≠ "" ∧ ∃ b, f cur = some b ∧ b ≠ "" ∧ chainWalk sha f (n+1) b = none := by
  rw [chainWalk_succ] at h
  split at h
  · exact absurd h (by simp)
  next hc =>
    split at h
    · exact absurd h (by simp)
    next ht =>
      rw [Option.map_eq_none'] at h
      refine ⟨hc, ?_⟩
      cases hf : f cur with
      | none =>
        rw [hf, Option.getD_none, chainWalk_empty_head] at h
        exact absurd h (by simp)
      | some b =>
        rw [hf, Option.getD_some] at h
        by_cases hb : b = ""
        · rw [hb, chainWalk_empty_head] at h
          exact absurd h (by simp)
        · exact ⟨b, rfl, hb, h⟩

theorem chainWalk_none_live {sha : String → String} {f : String → Option String} :
    ∀ {n : Nat} {cur : String}, chainWalk sha f (n+1) cur = none →
      ∀ k, k ≤ n → ∃ c, iterateBase f k cur = some c ∧ c ≠ "" := by
  intro n
  induction n with
  | zero =>
    intro cur h k hk
    have hk0 : k = 0 := Nat.le_zero.mp hk
    subst hk0
    refine ⟨cur, rfl, ?_⟩
    intro hc
    rw [hc, chainWalk_empty_head] at h
    exact absurd h (by simp)
  | succ n ih =>
    intro cur h k hk
    obtain ⟨hcur, b, hf, hb, hwalk⟩ := chainWalk_none_step h
    cases k with
    | zero => exact ⟨cur, rfl, hcur⟩
    | succ j =>
      obtain ⟨c, hc, hcne⟩ := ih hwalk j (Nat.le_of_succ_le_succ hk)
      refine ⟨c, ?_, hcne⟩
      rw [iterateBase_succ, hf]
      exact hc

theorem buildBranchMap_mem_aux :
    ∀ (prs : List PrInfo) (m : String → Option String) (k v : String),
      (prs.foldl (fun m pr => fun k => if k = pr.headBranch then some pr.baseBranch else m k) m) k
        = some v →
      v ∈ prs.map (fun pr => pr.baseBranch) ∨ m k = some v := by
  intro prs
  induction prs with
  | nil => intro m k v h; exact Or.inr h
  | cons pr rest ih =>
    intro m k v h
    rw [List.foldl_cons] at h
    rcases ih _ k v h with hmem | hstep
    · exact Or.inl (by rw [List.map_cons]; exact List.mem_cons_of_mem _ hmem)
    · by_cases hk : k = pr.headBranch
      · rw [if_pos hk] at hstep
        have hv : pr.baseBranch = v := Option.some_inj.mp hstep
        subst hv
        exact Or.inl (by rw [List.map_cons]; exact List.mem_cons_self _ _)
      · rw [if_neg hk] at hstep
        exact Or.inr hstep

theorem buildBranchMap_mem {prs : List PrInfo} {k v : String}
    (h : buildBranchMap prs k = some v) : v ∈ prs.map (fun pr => pr.baseBranch) := by
  rcases buildBranchMap_mem_aux prs _ k v h with hm | habs
  · exact hm
  · exact absurd habs (by simp)

theorem buildBranchMap_foldl_skip :
    ∀ (l : List PrInfo) (m : String → Option String) (k : String),
      (∀ q ∈ l, q.headBranch ≠ k) →
      (l.foldl (fun m pr => fun k => if k = pr.headBranch then some pr.baseBranch else m k) m) k
        = m k := by
  intro l
  induction l with
  | nil => intro m k _; rfl
  | cons pr rest ih =>
    intro m k hl
    rw [List.foldl_cons, ih _ k (fun q hq => hl q (List.mem_cons_of_mem _ hq))]
    exact if_neg (fun he => hl pr (List.mem_cons_self _ _) he.symm)

/-- `Map.set` overwrites: the lookup of a head branch returns the base of the
*last* pull request in the list with that head branch. -/
theorem buildBranchMap_last_wins (prs₁ : List PrInfo) (pr : PrInfo) (prs₂ : List PrInfo)
    (h : ∀ q ∈ prs₂, q.headBranch ≠ pr.headBranch) :
    buildBranchMap (prs₁ ++ pr :: prs₂) pr.headBranch = some pr.baseBranch := by
  unfold buildBranchMap
  rw [List.foldl_append, List.foldl_cons, buildBranchMap_foldl_skip prs₂ _ _ h]
  simp

/-- Pigeonhole: when no cycle is reachable from `head`, the walk's live
branches are pairwise distinct values of the finite mapping, so the loop of
`buildBranchHierarchy` exits within `prs.length + 2` iterations. -/
theorem chainWalk_terminates {prs : List PrInfo} (sha : String → String) {head : String}
    (hnc : NoCycleFrom (buildBranchMap prs) head) :
    ∃ chain, buildBranchHierarchy prs sha (prs.length + 2) head = some chain := by
  unfold buildBranchHierarchy
  cases hres : chainWalk sha (buildBranchMap prs) (prs.length + 2) head with
  | some chain => exact ⟨chain, rfl⟩
  | none =>
    exfalso
    have hres2 : chainWalk sha (buildBranchMap prs) (prs.length + 1 + 1) head = none := hres
    have hlive := chainWalk_none_live hres2
    have hinj : ∀ x ∈ List.range (prs.length + 1), ∀ y ∈ List.range (prs.length + 1),
        iterateBase (buildBranchMap prs) (x+1) head = iterateBase (buildBranchMap prs) (y+1) head
        → x = y := by
      intro x hx y hy hxy
      rw [List.mem_range] at hx hy
      by_contra hne
      obtain ⟨cx, hcx, _⟩ := hlive (x+1) (by omega)
      obtain ⟨cy, hcy, _⟩ := hlive (y+1) (by omega)
      rcases Nat.lt_or_ge x y with hlt | hge
      · exact hnc (x+1) (y+1) cx (by omega) hcx (by rw [← hxy]; exact hcx)
      · have hlt : y < x := by omega
        exact hnc (y+1) (x+1) cy (by omega) hcy (by rw [hxy]; exact hcy)
    have hnodup :
        ((List.range (prs.length + 1)).map
          (fun j => iterateBase (buildBranchMap prs) (j+1) head)).Nodup :=
      (List.nodup_range (prs.length + 1)).map_on hinj
    have hsub : ((List.range (prs.length + 1)).map
          (fun j => iterateBase (buildBranchMap prs) (j+1) head)) ⊆
        ((prs.map (fun pr => pr.baseBranch)).map (fun v => some v)) := by
      intro x hx
      rw [List.mem_map] at hx
      obtain ⟨j, hj, hxj⟩ := hx
      rw [List.mem_range] at hj
      obtain ⟨c, hc, _⟩ := hlive (j+1) (by omega)
      obtain ⟨a, ha⟩ := iterateBase_val_mem hc
      rw [List.mem_map]
      exact ⟨c, buildBranchMap_mem ha, by rw [← hxj, hc]⟩
    have hlen := (hnodup.subperm hsub).length_le
    rw [List.length_map, List.length_range, List.length_map, List.length_map] at hlen
    omega

/-! ### Controller reconciliation -/

namespace Visualize

theorem countIndicators_remove (page : Page) :
    countIndicators (removeStackIndicators page) = 0 := by
  unfold countIndicators removeStackIndicators
  rw [List.count_eq_zero]
  intro hmem
  have := List.of_mem_filter hmem
  simp at this

theorem applyStep_count {page : Page} (h : countIndicators page ≤ 1) (s : ControllerStep) :
    countIndicators (applyStep page s) ≤ 1 := by
  cases s with
  | renderProvisional =>
    show countIndicators (true :: removeStackIndicators page) ≤ 1
    unfold countIndicators
    rw [List.count_cons_self]
    have h0 := countIndicators_remove page
    unfold countIndicators at h0
    omega
  | applyEnrichment =>
    show countIndicators (if page.contains true then true :: page.erase true else page) ≤ 1
    by_cases hc : page.contains true
    · rw [if_pos hc]
      unfold countIndicators at h ⊢
      rw [List.count_cons_self, List.count_erase_self]
      omega
    · rw [if_neg hc]
      exact h
  | abortRetry =>
    show countIndicators (removeStackIndicators page) ≤ 1
    rw [countIndicators_remove]
    omega

theorem runSteps_count : ∀ (steps : List ControllerStep) (page : Page),
    countIndicators page ≤ 1 → countIndicators (runSteps page steps) ≤ 1 := by
  intro steps
  induction steps with
  | nil => intro page h; exact h
  | cons s rest ih =>
    intro page h
    show countIndicators (runSteps (applyStep page s) rest) ≤ 1
    exact ih _ (applyStep_count h s)

end Visualize

/-! ### Test fixtures and claim theorems -/

/-- A pull-request edge fixture: one PR with the given head and base branch. -/
def prEdge (head base : String) : PrInfo := ⟨1, "pr", base, head, "open", "url"⟩

/-- A concrete branch-lookup oracle for fixtures. -/
def testSha : String → String := fun b => b ++ "-sha"

theorem contains_main_of_walk {s : String} (h : WALK_TRUNKS.contains s = true) :
    Visualize.MAIN_BRANCHES.contains s = true := by
  have hm : s ∈ WALK_TRUNKS := List.elem_iff.mp h
  rw [List.elem_iff]
  rcases (by simpa [WALK_TRUNKS] using hm : s = "main" ∨ s = "master" ∨ s = "develop")
    with rfl | rfl | rfl <;> simp [Visualize.MAIN_BRANCHES]

/-- Claim C1 (code bug): the source's `while (currentBranch)` loop has no hop
bound and the code base contains no `CycleOrTooDeep` (or any other resolution
error) at all.  On the cyclic edge mapping `{A→B, B→A}` reachable from head
`A`, the loop never exits: for every number of iterations the walk is still
running (`none`), for any sha oracle, instead of terminating within a bound
with a typed cycle error. -/
theorem buildBranchHierarchy_cycle_diverges (sha : String → String) :
    ∀ n : Nat, buildBranchHierarchy [prEdge "A" "B", prEdge "B" "A"] sha n "A" = none := by
  have key : ∀ n : Nat,
      chainWalk sha (buildBranchMap [prEdge "A" "B", prEdge "B" "A"]) n "A" = none ∧
      chainWalk sha (buildBranchMap [prEdge "A" "B", prEdge "B" "A"]) n "B" = none := by
    intro n
    induction n with
    | zero => exact ⟨rfl, rfl⟩
    | succ n ih =>
      constructor
      · rw [chainWalk_succ, if_neg (by decide), if_neg (by decide)]
        have hB : (buildBranchMap [prEdge "A" "B", prEdge "B" "A"] "A").getD "" = "B" := rfl
        rw [hB, ih.2]
        rfl
      · rw [chainWalk_succ, if_neg (by decide), if_neg (by decide)]
        have hA : (buildBranchMap [prEdge "A" "B", prEdge "B" "A"] "B").getD "" = "A" := rfl
        rw [hA, ih.1]
        rfl
  intro n
  exact (key n).1

/-- Claim C2 (confirmed): the classification `isStackedPR` is `false` exactly
when the lowercased base branch name is in `MAIN_BRANCHES`, for every casing
of the trunk names (e.g. `"Main"`, `"MASTER"`), and `getPRInfo` computes it
from the extracted strings alone — it does not depend on the head branch and
involves no network call or chain walk (`isStackedPR` is a pure function of
the base branch name). -/
theorem isStackedPR_iff_trunk :
    (∀ base : String,
        Visualize.isStackedPR base = false ↔ jsToLower base ∈ Visualize.MAIN_BRANCHES)
    ∧ Visualize.isStackedPR "Main" = false
    ∧ Visualize.isStackedPR "MASTER" = false
    ∧ (∀ o r base h h' : String,
        (Visualize.mkPrInfo o r base h).isStackedPR
          = (Visualize.mkPrInfo o r base h').isStackedPR) := by
  refine ⟨?_, by decide, by decide, fun o r base h h' => rfl⟩
  intro base
  unfold Visualize.isStackedPR
  constructor
  · intro hf
    have h1 : Visualize.MAIN_BRANCHES.contains (jsToLower base) = true := by
      cases hcb : Visualize.MAIN_BRANCHES.contains (jsToLower base)
      · rw [hcb] at hf
        exact absurd hf (by decide)
      · rfl
    exact List.elem_iff.mp h1
  · intro hm
    have h1 : Visualize.MAIN_BRANCHES.contains (jsToLower base) = true := List.elem_iff.mpr hm
    rw [h1]
    rfl

/-- Claim C3 (counterexample): the trunk check of the chain walk is the
literal `['main','master','develop']`, which does not include `'dev'`.  On
edges `{A→dev, dev→feature}` with head `A` the walk does not append `dev` as
a terminal and stop — although `'dev'` is in `MAIN_BRANCHES` — but continues
through `dev` to `feature`. -/
theorem walk_dev_not_terminal :
    Visualize.MAIN_BRANCHES.contains (jsToLower "dev") = true ∧
    buildBranchHierarchy [prEdge "A" "dev", prEdge "dev" "feature"] testSha 10 "A" ≠
      some [⟨"A", testSha "A", some "dev"⟩, ⟨"dev", testSha "dev", none⟩] ∧
    buildBranchHierarchy [prEdge "A" "dev", prEdge "dev" "feature"] testSha 10 "A" =
      some [⟨"A", testSha "A", some "dev"⟩, ⟨"dev", testSha "dev", some "feature"⟩,
            ⟨"feature", testSha "feature", none⟩] := by
  decide

/-- Claim C3 (amended): the chain walk tests trunk termination against
`['main','master','develop']` (no `'dev'`), case-insensitively via
`toLowerCase`: whenever the branch the walk is about to continue to has its
lowercased name in that list, the walk appends that branch exactly once as
the terminal node — with no base link — and stops. -/
theorem chainWalk_trunk_stop (sha : String → String) (f : String → Option String)
    (n : Nat) (cur b : String) (hcur : cur ≠ "")
    (hf : f cur = some b) (hb : WALK_TRUNKS.contains (jsToLower b) = true) :
    chainWalk sha f (n+1) cur = some [⟨cur, sha cur, some b⟩, ⟨b, sha b, none⟩] := by
  rw [chainWalk_succ, if_neg hcur, hf, Option.getD_some, if_pos hb]

theorem chainWalk_trunk_stop_witness :
    chainWalk testSha (buildBranchMap [prEdge "X" "MASTER"]) 5 "X" =
      some [⟨"X", testSha "X", some "MASTER"⟩, ⟨"MASTER", testSha "MASTER", none⟩] :=
  chainWalk_trunk_stop testSha (buildBranchMap [prEdge "X" "MASTER"]) 4 "X" "MASTER"
    (by decide) (by decide) (by decide)

/-- Claim C4 (counterexample): the mapping `{A→""}` (a PR whose base ref is
the empty string) has no cycle reachable from head `A`, and the walk
terminates with the chain `[A]` — but its last node is neither named after a
trunk branch (in either trunk list) nor dangling in the claim's sense: `A`
*does* have an outgoing edge in the mapping (to `""`). -/
theorem acyclic_walk_empty_base_cex :
    buildBranchHierarchy [prEdge "A" ""] testSha 10 "A" =
      some [⟨"A", testSha "A", some ""⟩] ∧
    ¬(Visualize.MAIN_BRANCHES.contains (jsToLower "A") = true ∨
      WALK_TRUNKS.contains (jsToLower "A") = true ∨
      buildBranchMap [prEdge "A" ""] "A" = none) := by
  decide

/-- Claim C4 (amended): for every edge mapping without a cycle reachable from
the head branch, the walk of `buildBranchHierarchy` terminates — it exits
within `prs.length + 2` loop iterations, never looping — and the returned
chain ends in a node whose lowercased name is in the trunk-name list, or in a
node whose base edge in the mapping is absent *or the empty string* (the
dangling case: `currentBranch = baseBranch || ''` makes an empty-string base
end the walk exactly like a missing edge, though it is kept on the node). -/
theorem buildBranchHierarchy_acyclic (prs : List PrInfo) (sha : String → String)
    (head : String) (hnc : NoCycleFrom (buildBranchMap prs) head) :
    ∃ chain, buildBranchHierarchy prs sha (prs.length + 2) head = some chain ∧
      ∀ x, chain.getLast? = some x →
        Visualize.MAIN_BRANCHES.contains (jsToLower x.name) = true ∨
        buildBranchMap prs x.name = none ∨
        buildBranchMap prs x.name = some "" := by
  obtain ⟨chain, hchain⟩ := chainWalk_terminates sha hnc
  refine ⟨chain, hchain, ?_⟩
  intro x hx
  rcases (chainWalk_last_spec hchain x hx).1 with ht | h2 | h3
  · exact Or.inl (contains_main_of_walk ht)
  · exact Or.inr (Or.inl h2)
  · exact Or.inr (Or.inr h3)

/-- The classic stack fixture: edges A→B and B→main. -/
def stackPrs : List PrInfo := [prEdge "A" "B", prEdge "B" "main"]

theorem buildBranchHierarchy_acyclic_witness :
    ∃ chain, buildBranchHierarchy stackPrs testSha (stackPrs.length + 2) "A" = some chain ∧
      ∀ x, chain.getLast? = some x →
        Visualize.MAIN_BRANCHES.contains (jsToLower x.name) = true ∨
        buildBranchMap stackPrs x.name = none ∨
        buildBranchMap stackPrs x.name = some "" :=
  buildBranchHierarchy_acyclic stackPrs testSha "A" (by
    intro m n c hmn hm hn
    have h3 : ∀ k, iterateBase (buildBranchMap stackPrs) (3+k) "A" = none := fun k =>
      iterateBase_none_add _ (by decide) k
    have hmlt : m < 3 := by
      by_contra hge
      have hnone : iterateBase (buildBranchMap stackPrs) m "A" = none := by
        have hk := h3 (m - 3)
        rwa [show 3 + (m - 3) = m by omega] at hk
      rw [hnone] at hm
      exact absurd hm (by simp)
    have hnlt : n < 3 := by
      by_contra hge
      have hnone : iterateBase (buildBranchMap stackPrs) n "A" = none := by
        have hk := h3 (n - 3)
        rwa [show 3 + (n - 3) = n by omega] at hk
      rw [hnone] at hn
      exact absurd hn (by simp)
    interval_cases m <;> interval_cases n <;> first
      | omega
      | exact absurd (Option.some_inj.mp (hm.trans hn.symm)) (by decide))

/-- Claim C5 (confirmed): every chain returned by `buildBranchHierarchy` is a
path — each node except the last stores as its `baseBranch` exactly the name
of the next node — even though the underlying edge relation may have several
PRs per head branch: the mapping keeps the *last-seen* edge for a head branch,
because `Map.set` overwrites. -/
theorem buildBranchHierarchy_path :
    (∀ (prs : List PrInfo) (sha : String → String) (n : Nat) (head : String)
        (chain : List BranchInfo), buildBranchHierarchy prs sha n head = some chain →
        ∀ (i : Nat) (h : i + 1 < chain.length),
          (chain.get ⟨i, Nat.lt_of_succ_lt h⟩).baseBranch = some (chain.get ⟨i+1, h⟩).name)
    ∧ (∀ (prs₁ : List PrInfo) (pr : PrInfo) (prs₂ : List PrInfo),
        (∀ q ∈ prs₂, q.headBranch ≠ pr.headBranch) →
        buildBranchMap (prs₁ ++ pr :: prs₂) pr.headBranch = some pr.baseBranch) :=
  ⟨fun _ _ _ _ _ h i hi => chainWalk_adjacent h i hi, buildBranchMap_last_wins⟩

theorem buildBranchHierarchy_path_witness :
    (([⟨"A", testSha "A", some "C"⟩, ⟨"C", testSha "C", some "main"⟩,
       ⟨"main", testSha "main", none⟩] : List BranchInfo).get
        ⟨0, by decide⟩).baseBranch =
      some (([⟨"A", testSha "A", some "C"⟩, ⟨"C", testSha "C", some "main"⟩,
              ⟨"main", testSha "main", none⟩] : List BranchInfo).get ⟨1, by decide⟩).name ∧
    buildBranchMap ([prEdge "A" "B"] ++ prEdge "A" "C" :: [prEdge "C" "main"]) "A" =
      some "C" :=
  ⟨buildBranchHierarchy_path.1
      [prEdge "A" "B", prEdge "A" "C", prEdge "C" "main"] testSha 10 "A"
      [⟨"A", testSha "A", some "C"⟩, ⟨"C", testSha "C", some "main"⟩,
       ⟨"main", testSha "main", none⟩] (by decide) 0 (by decide),
   buildBranchHierarchy_path.2 [prEdge "A" "B"] (prEdge "A" "C") [prEdge "C" "main"]
      (by decide)⟩

/-- Claim C6 (confirmed): without a credential no network call is attempted —
`fetchGitHubApi` fails with the distinguishable no-token error for *every*
request oracle, i.e. before issuing any request; `fetchBranchChain` returns
`[]` without consulting the hierarchy; the Controller leaves the provisional
record untouched (no enrichment), and the token-status element it renders is
the warning carrying the configure-credential affordance. -/
theorem noCredential_failfast :
    (∀ (α : Type) (request : String → Except ApiError α),
        fetchGitHubApi none request = Except.error ApiError.noToken)
    ∧ (∀ hierarchy : Except ApiError (List BranchInfo),
        Visualize.fetchBranchChain false hierarchy = [])
    ∧ (Visualize.addTokenStatusToUI false).cssClass = "pr-stack-warning"
    ∧ (Visualize.addTokenStatusToUI false).hasConfigureLink = true
    ∧ (∀ (p : Visualize.PrInfo) (hierarchy : Except ApiError (List BranchInfo)),
        Visualize.visualizeEnrichment false p hierarchy = p) :=
  ⟨fun _ _ => rfl, fun _ => rfl, rfl, rfl, fun _ _ => rfl⟩

/-- Claim C7 (confirmed): starting from a page with at most one marked
indicator node (a fresh page has none), any interleaving of the Controller's
synchronous blocks leaves at most one node carrying the marker attribute
`data-pr-stack="true"`; moreover every full render first removes *all* prior
marked nodes — `removeStackIndicators` leaves zero — before the one insertion
in the same synchronous block. -/
theorem indicator_uniqueness :
    (∀ (page : Visualize.Page) (steps : List Visualize.ControllerStep),
        Visualize.countIndicators page ≤ 1 →
        Visualize.countIndicators (Visualize.runSteps page steps) ≤ 1)
    ∧ (∀ page : Visualize.Page,
        Visualize.countIndicators (Visualize.removeStackIndicators page) = 0) :=
  ⟨fun page steps h => Visualize.runSteps_count steps page h,
   Visualize.countIndicators_remove⟩

theorem indicator_uniqueness_witness :
    Visualize.countIndicators (Visualize.runSteps []
      [Visualize.ControllerStep.renderProvisional,
       Visualize.ControllerStep.applyEnrichment,
       Visualize.ControllerStep.renderProvisional,
       Visualize.ControllerStep.applyEnrichment]) ≤ 1 :=
  indicator_uniqueness.1 [] _ (by decide)

/-- Claim C8 (counterexample): the controller does not give up after the
three documented attempts.  In the scenario where the page context or the
insertion point never becomes extractable, the self-retry chain spawned by a
single trigger is still scheduling attempts at index 50 — refuting "a bounded
number of delayed re-attempts (immediate, +500ms, +2000ms) and then gives up
silently for that observer cycle". -/
theorem retry_unbounded_cex :
    Visualize.retryActive (fun _ => false) 50 = true ∧
    ¬(∀ n : Nat, 3 ≤ n → Visualize.retryActive (fun _ => false) n = false) :=
  ⟨by decide, fun h => absurd (h 50 (by omega)) (by decide)⟩

/-- Claim C8 (amended): `init` fires attempts at the fixed delays 0ms, 500ms
and 2000ms; independently, each `visualizePR` call that cannot extract the
page context or the insertion point schedules one more attempt 1000ms later —
without bound, for as long as extraction keeps failing — and a successful
attempt ends the self-retry chain. -/
theorem retry_schedule (avail : Nat → Bool) (n : Nat) :
    (Visualize.retryActive avail n = true → avail n = false →
        Visualize.retryActive avail (n+1) = true)
    ∧ (avail n = true → Visualize.retryActive avail (n+1) = false)
    ∧ Visualize.initAttemptDelays = [0, 500, 2000]
    ∧ Visualize.selfRetryDelayMs = 1000 := by
  refine ⟨fun ha hf => ?_, fun ht => ?_, rfl, rfl⟩
  · show (Visualize.retryActive avail n && !(avail n)) = true
    rw [ha, hf]
    rfl
  · show (Visualize.retryActive avail n && !(avail n)) = false
    rw [ht]
    simp

theorem retry_schedule_witness :
    Visualize.retryActive (fun k => k == 2) 1 = true ∧
    Visualize.retryActive (fun k => k == 2) 3 = false :=
  ⟨(retry_schedule (fun k => k == 2) 0).1 (by decide) (by decide),
   (retry_schedule (fun k => k == 2) 2).2.1 (by decide)⟩

/-- Claim C9 (counterexample): on the mapping `{A→""}` the returned chain is
`[A]` and the last node's `baseBranch` is *present* — the stored empty string
(`branchInfo.baseBranch = branchMap.get(...)` keeps `''`) — not absent. -/
theorem last_node_empty_base_cex :
    buildBranchHierarchy [prEdge "A" ""] testSha 9 "A" =
      some [⟨"A", testSha "A", some ""⟩] ∧
    ([⟨"A", testSha "A", some ""⟩] : List BranchInfo).getLast? =
      some ⟨"A", testSha "A", some ""⟩ ∧
    (⟨"A", testSha "A", some ""⟩ : BranchInfo).baseBranch ≠ none := by
  decide

/-- Claim C9 (amended): the last node of every chain `buildBranchHierarchy`
returns carries no usable base link: its `baseBranch` is absent or the empty
string.  In particular the appended trunk terminal always has `baseBranch`
absent — even when the trunk branch itself appears as a head key in the edge
mapping, since the terminal comes from a fresh `getBranchInfo` — so the walk
never continues past a trunk base. -/
theorem buildBranchHierarchy_last_base (prs : List PrInfo) (sha : String → String)
    (n : Nat) (head : String) (chain : List BranchInfo)
    (h : buildBranchHierarchy prs sha n head = some chain) :
    ∀ x, chain.getLast? = some x → x.baseBranch = none ∨ x.baseBranch = some "" :=
  fun x hx => (chainWalk_last_spec h x hx).2

theorem buildBranchHierarchy_last_base_witness :
    (⟨"main", testSha "main", none⟩ : BranchInfo).baseBranch = none ∨
    (⟨"main", testSha "main", none⟩ : BranchInfo).baseBranch = some "" :=
  buildBranchHierarchy_last_base [prEdge "A" "main", prEdge "main" "X"] testSha 10 "A"
    [⟨"A", testSha "A", some "main"⟩, ⟨"main", testSha "main", none⟩] (by decide)
    ⟨"main", testSha "main", none⟩ (by decide)

/-- Claim C10 (confirmed): with an empty head branch name the `while` loop's
condition is false at once: after listing the pull requests the walk performs
no branch lookup (the result is the empty chain for *every* sha oracle) and
returns `[]`; and this input is reachable from the public interface, because
`getPRInfo` yields an empty head branch name when the DOM element's text is
empty (or missing). -/
theorem buildBranchHierarchy_empty_head :
    (∀ (prs : List PrInfo) (sha : String → String) (n : Nat),
        buildBranchHierarchy prs sha (n+1) "" = some [])
    ∧ (∀ (prs : List PrInfo) (sha sha' : String → String) (n : Nat),
        buildBranchHierarchy prs sha (n+1) "" = buildBranchHierarchy prs sha' (n+1) "")
    ∧ Visualize.extractBranchName (some "") = ""
    ∧ Visualize.extractBranchName none = "" := by
  refine ⟨?_, ?_, rfl, rfl⟩
  · intro prs sha n
    exact chainWalk_empty_head sha (buildBranchMap prs) n
  · intro prs sha sha' n
    rw [show buildBranchHierarchy prs sha (n+1) "" = some [] from
          chainWalk_empty_head sha (buildBranchMap prs) n,
        show buildBranchHierarchy prs sha' (n+1) "" = some [] from
          chainWalk_empty_head sha' (buildBranchMap prs) n]
